import Mathlib

/-!
Shallow embedding of src/src/private/string_suggestion.cc (the Octave pkg
string-suggestion helper, a Norvig-style spelling corrector).

Strings are modelled as lists of characters (`Str`).  C++ `std::string`
operations that can fail are modelled in `Option`: `substr(pos, n)` throws
`std::out_of_range` when `pos > size()`, and `operator[]` is undefined for
indices strictly greater than `size()` (at `size()` it yields the null
character, per C++11).  A `none` result anywhere means the C++ program
raises or hits undefined behaviour on that input.

`std::string::size_type` is unsigned 64-bit, so `word.size() - 1` in the
transposition loop of `edits` is computed modulo 2^64; the model keeps that
wrap-around explicit (`szMod`).

`std::map<std::string,int>` is modelled as an association list kept sorted
by key in strict lexicographic order (`lexLt`), which is exactly the
iteration order of the C++ container with the default `std::less` comparator.
-/

/-- Model of `std::string`: a list of characters. -/
abbrev Str := List Char

/-- Model of `std::map<std::string, int>`: an association list, kept sorted
by key (strict lexicographic order) so that list order is the container's
iteration order. -/
abbrev SMap := List (Str × Int)

/-- `2^64`, the modulus of `std::string::size_type` arithmetic. -/
def szMod : Nat := 2 ^ 64

/-- Strict character comparison, as `std::less<char>` on byte values
(`a`..`z` here, where byte value and code point agree). -/
def charLt (a b : Char) : Bool := a.toNat < b.toNat

/-- Strict lexicographic comparison of strings, as `std::less<std::string>`
(the `std::map` key order used by `dictionary` and `candidates`). -/
def lexLt : Str → Str → Bool
  | [], [] => false
  | [], _ :: _ => true
  | _ :: _, [] => false
  | a :: as, b :: bs => if charLt a b then true else if charLt b a then false else lexLt as bs

/-- `m.find(k)`: look up key `k` in the map, returning its value. -/
def mapFind (m : SMap) (k : Str) : Option Int :=
  match m with
  | [] => none
  | (k₀, v₀) :: t => if k = k₀ then some v₀ else mapFind t k

/-- `m[k] = v`: insert or overwrite key `k` with value `v`, keeping the list
sorted by key (the `std::map` invariant). -/
def mapInsert (m : SMap) (k : Str) (v : Int) : SMap :=
  match m with
  | [] => [(k, v)]
  | (k₀, v₀) :: t =>
    if lexLt k k₀ then (k, v) :: (k₀, v₀) :: t
    else if k = k₀ then (k, v) :: t
    else (k₀, v₀) :: mapInsert t k v

/-- `word.substr(pos, count)`: throws (`none`) when `pos > size()`, else the
characters from `pos`, at most `count` of them. -/
def substrCnt (w : Str) (pos count : Nat) : Option Str :=
  if pos ≤ w.length then some ((w.drop pos).take count) else none

/-- `word.substr(pos)`: throws (`none`) when `pos > size()`, else the suffix
from `pos`. -/
def substrFrom (w : Str) (pos : Nat) : Option Str :=
  if pos ≤ w.length then some (w.drop pos) else none

/-- `word[i]`: the character at `i`; the null character at `i = size()`
(C++11); undefined behaviour (`none`) past that. -/
def charAt (w : Str) (i : Nat) : Option Char :=
  if h : i < w.length then some (w.get ⟨i, h⟩)
  else if i = w.length then some (Char.ofNat 0)
  else none

/-- Body of the deletion loop of `edits`:
`word.substr(0, i) + word.substr(i + 1)`. -/
def delBody (w : Str) (i : Nat) : Option Str := do
  let a ← substrCnt w 0 i
  let b ← substrFrom w (i + 1)
  pure (a ++ b)

/-- Body of the transposition loop of `edits`:
`word.substr(0, i) + word[i + 1] + word[i] + word.substr(i + 2)`. -/
def transBody (w : Str) (i : Nat) : Option Str := do
  let a ← substrCnt w 0 i
  let c₁ ← charAt w (i + 1)
  let c₂ ← charAt w i
  let b ← substrFrom w (i + 2)
  pure (a ++ [c₁, c₂] ++ b)

/-- Body of the alteration loop of `edits`:
`word.substr(0, i) + j + word.substr(i + 1)`. -/
def altBody (w : Str) (j : Char) (i : Nat) : Option Str := do
  let a ← substrCnt w 0 i
  let b ← substrFrom w (i + 1)
  pure (a ++ [j] ++ b)

/-- Body of the insertion loop of `edits`:
`word.substr(0, i) + j + word.substr(i)`. -/
def insBody (w : Str) (j : Char) (i : Nat) : Option Str := do
  let a ← substrCnt w 0 i
  let b ← substrFrom w i
  pure (a ++ [j] ++ b)

/-- A counted `for (i = start; i < start + rem; i++) results.push_back(body i)`
loop whose body may throw: the sequence of produced strings, or `none` as soon
as one body fails. -/
def loopN (body : Nat → Option Str) : Nat → Nat → Option (List Str)
  | _, 0 => some []
  | i, r + 1 =>
    match body i with
    | none => none
    | some x =>
      match loopN body (i + 1) r with
      | none => none
      | some xs => some (x :: xs)

/-- The alphabet `'a'..'z'` iterated by the alteration/insertion loops. -/
def letters : List Char :=
  ['a', 'b', 'c', 'd', 'e', 'f', 'g', 'h', 'i', 'j', 'k', 'l', 'm',
   'n', 'o', 'p', 'q', 'r', 's', 't', 'u', 'v', 'w', 'x', 'y', 'z']

/-- The `for (char j = 'a'; j <= 'z'; ++j)` loop of `edits`: for each letter,
all alterations then all insertions. -/
def perLetter (w : Str) : List Char → Option (List Str)
  | [] => some []
  | j :: js => do
    let alts ← loopN (altBody w j) 0 w.length
    let ins ← loopN (insBody w j) 0 (w.length + 1)
    let rest ← perLetter w js
    pure (alts ++ ins ++ rest)

/-- `edits(word, results)`: all single-edit candidates of `word`, in push
order — deletions, transpositions, then per letter (a..z) alterations and
insertions.  The transposition loop bound is `word.size() - 1` in unsigned
`size_type` arithmetic, i.e. `(length + 2^64 - 1) % 2^64`: for the empty
word it wraps around to `2^64 - 1` and the first iteration already performs
an out-of-range access, so the call fails (`none`). -/
def edits (word : Str) : Option (List Str) := do
  let dels ← loopN (delBody word) 0 word.length
  let trans ← loopN (transBody word) 0 ((word.length + (szMod - 1)) % szMod)
  let rest ← perLetter word letters
  pure (dels ++ trans ++ rest)

/-- `known(results, candidates)`: fold the candidate strings through the
dictionary, storing `candidates[r] = dictionary[r]` for every hit. -/
def known (dict : SMap) (results : List Str) (candidates : SMap) : SMap :=
  results.foldl
    (fun cand r =>
      match mapFind dict r with
      | some v => mapInsert cand r v
      | none => cand)
    candidates

/-- `sortBySecond`: the comparator handed to `max_element` — compares the
weights only. -/
def sortBySecond (l r : Str × Int) : Bool := l.2 < r.2

/-- `max_element(candidates.begin(), candidates.end(), sortBySecond)` over the
nonempty range `best :: rest`: keeps the current best and replaces it only
when a later element is strictly greater, so of equal-weight elements the
first in iteration order survives. -/
def maxElem (best : Str × Int) : List (Str × Int) → Str × Int
  | [] => best
  | x :: xs => maxElem (if sortBySecond best x then x else best) xs

/-- The second-edit loop of `correct`: for each first-edit result `r`,
generate `edits(r)` and filter it through `known` into the same accumulator
`cand`. -/
def tier3 (dict : SMap) : List Str → SMap → Option SMap
  | [], cand => some cand
  | r :: rs, cand =>
    match edits r with
    | none => none
    | some sub => tier3 dict rs (known dict sub cand)

/-- `correct(word)`: exact dictionary hit, else best-weight known first edit,
else best-weight known second edit, else the empty string.  `dict` is the
global `dictionary` the C++ routine reads.  (In the second-edit branch the
`candidates` accumulator is the map just matched as empty, hence `tier3`
starts from `[]`.) -/
def correct (dict : SMap) (word : Str) : Option Str :=
  match mapFind dict word with
  | some _ => some word
  | none =>
    match edits word with
    | none => none
    | some result =>
      match known dict result [] with
      | c :: cs => some (maxElem c cs).1
      | [] =>
        match tier3 dict result [] with
        | none => none
        | some cand =>
          match cand with
          | c :: cs => some (maxElem c cs).1
          | [] => some []

/-- The candidate map from which `correct` selects its answer when `word` is
not an exact hit: the known first edits if any survive, otherwise the
accumulated known second edits. -/
def selCandidates (dict : SMap) (word : Str) : Option SMap :=
  match edits word with
  | none => none
  | some result =>
    match known dict result [] with
    | c :: cs => some (c :: cs)
    | [] => tier3 dict result []

/-- The dictionary-filling loop of `string_suggestion`: for each vocabulary
term, `dictionary[term] = 1` (every entry gets weight 1; weighting is not
implemented).  The global `dictionary` is never cleared, so each invocation
folds its terms on top of whatever `dict` already holds. -/
def fillDict (dict : SMap) (terms : List Str) : SMap :=
  terms.foldl (fun m t => mapInsert m t 1) dict

/-! ### Order lemmas for the `std::map` key comparison -/

theorem charLt_eq_of (a b : Char) (h₁ : charLt a b = false) (h₂ : charLt b a = false) :
    a = b := by
  simp only [charLt, decide_eq_false_iff_not, Nat.not_lt] at h₁ h₂
  exact Char.ext (UInt32.ext (Nat.le_antisymm h₂ h₁))

theorem charLt_irrefl (a : Char) : charLt a a = false := by
  simp [charLt]

theorem lexLt_cons_iff (a b : Char) (as bs : Str) :
    lexLt (a :: as) (b :: bs) = true ↔ charLt a b = true ∨ (a = b ∧ lexLt as bs = true) := by
  simp only [lexLt]
  cases h₁ : charLt a b with
  | true => simp [h₁]
  | false =>
    cases h₂ : charLt b a with
    | true =>
      have hne : a ≠ b := by
        intro h
        rw [h, charLt_irrefl] at h₂
        exact Bool.false_ne_true h₂
      simp [hne]
    | false =>
      have heq : a = b := charLt_eq_of a b h₁ h₂
      simp [heq]

theorem lexLt_irrefl (a : Str) : lexLt a a = false := by
  induction a with
  | nil => rfl
  | cons c t ih => simp [lexLt, charLt, ih]

theorem lexLt_trans (a b c : Str) (h₁ : lexLt a b = true) (h₂ : lexLt b c = true) :
    lexLt a c = true := by
  induction a generalizing b c with
  | nil =>
    cases b with
    | nil => simp [lexLt] at h₁
    | cons yb tb =>
      cases c with
      | nil => simp [lexLt] at h₂
      | cons yc tc => simp [lexLt]
  | cons ya ta ih =>
    cases b with
    | nil => simp [lexLt] at h₁
    | cons yb tb =>
      cases c with
      | nil => simp [lexLt] at h₂
      | cons yc tc =>
        rw [lexLt_cons_iff] at h₁ h₂ ⊢
        rcases h₁ with h₁ | ⟨rfl, h₁⟩
        · rcases h₂ with h₂ | ⟨rfl, h₂⟩
          · left
            simp only [charLt, decide_eq_true_eq] at h₁ h₂ ⊢
            omega
          · exact Or.inl h₁
        · rcases h₂ with h₂ | ⟨rfl, h₂⟩
          · exact Or.inl h₂
          · exact Or.inr ⟨rfl, ih tb tc h₁ h₂⟩

theorem lexLt_asymm (a b : Str) (h : lexLt a b = true) : lexLt b a = false := by
  cases hba : lexLt b a with
  | false => rfl
  | true =>
    exfalso
    have := lexLt_trans a b a h hba
    rw [lexLt_irrefl] at this
    exact Bool.false_ne_true this

theorem lexLt_total (a b : Str) (h₁ : lexLt a b = false) (h₂ : lexLt b a = false) :
    a = b := by
  induction a generalizing b with
  | nil =>
    cases b with
    | nil => rfl
    | cons yb tb => simp [lexLt] at h₁
  | cons ya ta ih =>
    cases b with
    | nil => simp [lexLt] at h₂
    | cons yb tb =>
      have h₁n : ¬ lexLt (ya :: ta) (yb :: tb) = true := by simp [h₁]
      have h₂n : ¬ lexLt (yb :: tb) (ya :: ta) = true := by simp [h₂]
      rw [lexLt_cons_iff] at h₁n h₂n
      push_neg at h₁n h₂n
      obtain ⟨hc₁, hr₁⟩ := h₁n
      obtain ⟨hc₂, hr₂⟩ := h₂n
      have heq : ya = yb :=
        charLt_eq_of ya yb (Bool.not_eq_true _ ▸ hc₁) (Bool.not_eq_true _ ▸ hc₂)
      have ht : ta = tb := by
        refine ih tb ?_ ?_
        · exact Bool.not_eq_true _ ▸ (hr₁ heq)
        · exact Bool.not_eq_true _ ▸ (hr₂ heq.symm)
      rw [heq, ht]

/-! ### Map invariants -/

/-- The `std::map` representation invariant: keys strictly increasing in
iteration order. -/
def mapOrdered (m : SMap) : Prop :=
  List.Pairwise (fun x y => lexLt x.1 y.1 = true) m

theorem mapInsert_mem (m : SMap) (k : Str) (v : Int) (x : Str × Int)
    (h : x ∈ mapInsert m k v) : x = (k, v) ∨ x ∈ m := by
  induction m with
  | nil =>
    simp [mapInsert] at h
    exact Or.inl h
  | cons p t ih =>
    obtain ⟨k₀, v₀⟩ := p
    simp only [mapInsert] at h
    by_cases h₁ : lexLt k k₀ = true
    · simp [h₁] at h
      rcases h with h | h | h
      · exact Or.inl (by simp [h])
      · exact Or.inr (by simp [h])
      · exact Or.inr (by simp [h])
    · simp only [h₁, if_false, Bool.not_eq_true] at h
      rw [Bool.not_eq_true] at h₁
      by_cases h₂ : k = k₀
      · simp [h₁, h₂] at h
        rcases h with h | h
        · exact Or.inl (by simp [h, h₂])
        · exact Or.inr (by simp [h])
      · simp [h₁, h₂] at h
        rcases h with h | h
        · exact Or.inr (by simp [h])
        · rcases ih h with h | h
          · exact Or.inl h
          · exact Or.inr (by simp [h])

theorem mapInsert_ordered (m : SMap) (k : Str) (v : Int) (h : mapOrdered m) :
    mapOrdered (mapInsert m k v) := by
  induction m with
  | nil => simp [mapInsert, mapOrdered]
  | cons p t ih =>
    obtain ⟨k₀, v₀⟩ := p
    rw [mapOrdered, List.pairwise_cons] at h
    obtain ⟨hhead, htail⟩ := h
    simp only [mapInsert]
    by_cases h₁ : lexLt k k₀ = true
    · rw [if_pos h₁, mapOrdered, List.pairwise_cons]
      constructor
      · intro x hx
        rcases List.mem_cons.mp hx with hx | hx
        · rw [hx]; exact h₁
        · exact lexLt_trans _ _ _ h₁ (hhead x hx)
      · rw [List.pairwise_cons]
        exact ⟨hhead, htail⟩
    · rw [if_neg h₁]
      by_cases h₂ : k = k₀
      · rw [if_pos h₂, mapOrdered, List.pairwise_cons]
        refine ⟨fun x hx => ?_, htail⟩
        rw [h₂]
        exact hhead x hx
      · rw [if_neg h₂, mapOrdered, List.pairwise_cons]
        have hk₀k : lexLt k₀ k = true := by
          cases hc : lexLt k₀ k with
          | true => rfl
          | false =>
            exact absurd (lexLt_total k k₀ (Bool.not_eq_true _ ▸ h₁) hc) h₂
        refine ⟨fun x hx => ?_, ih htail⟩
        rcases mapInsert_mem t k v x hx with hx | hx
        · rw [hx]; exact hk₀k
        · exact hhead x hx

theorem mapFind_nil (k : Str) : mapFind [] k = none := rfl

theorem known_mem (dict : SMap) (results : List Str) (init : SMap) (x : Str × Int)
    (h : x ∈ known dict results init) : x ∈ init ∨ mapFind dict x.1 = some x.2 := by
  induction results generalizing init with
  | nil => exact Or.inl h
  | cons r rs ih =>
    simp only [known, List.foldl_cons] at h
    rw [← known] at h
    cases hf : mapFind dict r with
    | none =>
      rw [hf] at h
      exact ih init h
    | some v =>
      rw [hf] at h
      rcases ih (mapInsert init r v) h with h | h
      · rcases mapInsert_mem init r v x h with h | h
        · right
          rw [h]
          exact hf
        · exact Or.inl h
      · exact Or.inr h

theorem known_ordered (dict : SMap) (results : List Str) (init : SMap)
    (h : mapOrdered init) : mapOrdered (known dict results init) := by
  induction results generalizing init with
  | nil => exact h
  | cons r rs ih =>
    simp only [known, List.foldl_cons]
    rw [← known]
    cases hf : mapFind dict r with
    | none => exact ih init h
    | some v => exact ih (mapInsert init r v) (mapInsert_ordered init r v h)

theorem known_empty_dict (results : List Str) (init : SMap) :
    known [] results init = init := by
  induction results generalizing init with
  | nil => rfl
  | cons r rs ih =>
    simp only [known, List.foldl_cons, mapFind_nil]
    exact ih init

/-! ### Properties of the max-element selection -/

theorem maxElem_mem (l : List (Str × Int)) : ∀ best, maxElem best l ∈ best :: l := by
  induction l with
  | nil =>
    intro best
    simp [maxElem]
  | cons x xs ih =>
    intro best
    show maxElem (if sortBySecond best x then x else best) xs ∈ best :: x :: xs
    by_cases hs : sortBySecond best x = true
    · rw [if_pos hs]
      rcases List.mem_cons.mp (ih x) with h | h
      · rw [h]
        exact List.mem_cons.mpr (Or.inr (List.mem_cons_self x xs))
      · exact List.mem_cons.mpr (Or.inr (List.mem_cons.mpr (Or.inr h)))
    · rw [if_neg hs]
      rcases List.mem_cons.mp (ih best) with h | h
      · rw [h]
        exact List.mem_cons_self best _
      · exact List.mem_cons.mpr (Or.inr (List.mem_cons.mpr (Or.inr h)))

theorem maxElem_ge (l : List (Str × Int)) :
    ∀ best x, x ∈ best :: l → x.2 ≤ (maxElem best l).2 := by
  induction l with
  | nil =>
    intro best x h
    simp at h
    rw [h]
    exact le_refl _
  | cons y ys ih =>
    intro best x h
    show x.2 ≤ (maxElem (if sortBySecond best y then y else best) ys).2
    by_cases hs : sortBySecond best y = true
    · rw [if_pos hs]
      have hsv : best.2 < y.2 := by simpa [sortBySecond] using hs
      rcases List.mem_cons.mp h with h | h
      · rw [h]
        exact le_trans (le_of_lt hsv) (ih y y (List.mem_cons_self y ys))
      · exact ih y x h
    · rw [if_neg hs]
      have hsv : y.2 ≤ best.2 := by
        have : ¬ best.2 < y.2 := by simpa [sortBySecond] using hs
        omega
      rcases List.mem_cons.mp h with h | h
      · rw [h]
        exact ih best best (List.mem_cons_self best ys)
      rcases List.mem_cons.mp h with h | h
      · rw [h]
        exact le_trans hsv (ih best best (List.mem_cons_self best ys))
      · exact ih best x (List.mem_cons.mpr (Or.inr h))

theorem maxElem_strict (l : List (Str × Int)) :
    ∀ best, maxElem best l = best ∨ best.2 < (maxElem best l).2 := by
  induction l with
  | nil =>
    intro best
    exact Or.inl rfl
  | cons y ys ih =>
    intro best
    show maxElem (if sortBySecond best y then y else best) ys = best ∨
      best.2 < (maxElem (if sortBySecond best y then y else best) ys).2
    by_cases hs : sortBySecond best y = true
    · rw [if_pos hs]
      have hsv : best.2 < y.2 := by simpa [sortBySecond] using hs
      rcases ih y with h | h
      · right
        rw [h]
        exact hsv
      · right
        omega
    · rw [if_neg hs]
      exact ih best

theorem maxElem_lex_least (l : List (Str × Int)) :
    ∀ best x, List.Pairwise (fun a b => lexLt a.1 b.1 = true) (best :: l) →
      x ∈ best :: l → x.2 = (maxElem best l).2 →
      lexLt x.1 (maxElem best l).1 = false := by
  induction l with
  | nil =>
    intro best x _ hx _
    simp at hx
    rw [hx]
    exact lexLt_irrefl _
  | cons y ys ih =>
    intro best x hord hx hw
    rw [List.pairwise_cons] at hord
    obtain ⟨hbest, hord⟩ := hord
    rw [List.pairwise_cons] at hord
    obtain ⟨hy, hys⟩ := hord
    have hstep : maxElem best (y :: ys) = maxElem (if sortBySecond best y then y else best) ys :=
      rfl
    rw [hstep] at hw ⊢
    by_cases hs : sortBySecond best y = true
    · rw [if_pos hs] at hw ⊢
      have hsv : best.2 < y.2 := by simpa [sortBySecond] using hs
      have hord₂ : List.Pairwise (fun a b => lexLt a.1 b.1 = true) (y :: ys) :=
        List.pairwise_cons.mpr ⟨hy, hys⟩
      rcases List.mem_cons.mp hx with hxb | hx₂
      · exfalso
        have hge : y.2 ≤ (maxElem y ys).2 := maxElem_ge ys y y (List.mem_cons_self y ys)
        rw [hxb] at hw
        omega
      · exact ih y x hord₂ hx₂ hw
    · rw [if_neg hs] at hw ⊢
      have hsv : y.2 ≤ best.2 := by
        have : ¬ best.2 < y.2 := by simpa [sortBySecond] using hs
        omega
      have hord₂ : List.Pairwise (fun a b => lexLt a.1 b.1 = true) (best :: ys) :=
        List.pairwise_cons.mpr ⟨fun z hz => hbest z (List.mem_cons.mpr (Or.inr hz)), hys⟩
      rcases List.mem_cons.mp hx with hxb | hx₂
      · refine ih best x hord₂ ?_ hw
        rw [hxb]
        exact List.mem_cons_self best ys
      rcases List.mem_cons.mp hx₂ with hxy | hx₃
      · rw [hxy]
        rcases maxElem_strict ys best with hm | hm
        · rw [hm]
          exact lexLt_asymm _ _ (hbest y (List.mem_cons_self y ys))
        · exfalso
          have hw₂ : y.2 = (maxElem best ys).2 := hxy ▸ hw
          omega
      · exact ih best x hord₂ (List.mem_cons.mpr (Or.inr hx₃)) hw

/-! ### Properties of the second-edit accumulation loop -/

theorem tier3_mem (dict : SMap) (rs : List Str) :
    ∀ init m x, tier3 dict rs init = some m → x ∈ m →
      x ∈ init ∨ mapFind dict x.1 = some x.2 := by
  induction rs with
  | nil =>
    intro init m x h hx
    simp only [tier3, Option.some.injEq] at h
    rw [← h] at hx
    exact Or.inl hx
  | cons r rs ih =>
    intro init m x h hx
    simp only [tier3] at h
    cases he : edits r with
    | none =>
      rw [he] at h
      exact absurd h (by simp)
    | some sub =>
      rw [he] at h
      rcases ih (known dict sub init) m x h hx with h₂ | h₂
      · exact known_mem dict sub init x h₂
      · exact Or.inr h₂

theorem tier3_ordered (dict : SMap) (rs : List Str) :
    ∀ init m, tier3 dict rs init = some m → mapOrdered init → mapOrdered m := by
  induction rs with
  | nil =>
    intro init m h hord
    simp only [tier3, Option.some.injEq] at h
    rw [← h]
    exact hord
  | cons r rs ih =>
    intro init m h hord
    simp only [tier3] at h
    cases he : edits r with
    | none =>
      rw [he] at h
      exact absurd h (by simp)
    | some sub =>
      rw [he] at h
      exact ih (known dict sub init) m h (known_ordered dict sub init hord)

theorem tier3_empty_dict (rs : List Str) :
    ∀ init, (∀ r ∈ rs, (edits r).isSome) → tier3 [] rs init = some init := by
  induction rs with
  | nil =>
    intro init _
    rfl
  | cons r rs ih =>
    intro init h
    simp only [tier3]
    cases he : edits r with
    | none =>
      have := h r (List.mem_cons_self r rs)
      rw [he] at this
      exact absurd this (by simp)
    | some sub =>
      show tier3 [] rs (known [] sub init) = some init
      rw [known_empty_dict]
      exact ih init (fun q hq => h q (List.mem_cons.mpr (Or.inr hq)))

/-! ### Success and size of the edit-generation loops -/

theorem loopN_spec (body : Nat → Option Str) (P : Str → Prop) :
    ∀ rem i, (∀ k, k < rem → ∃ s, body (i + k) = some s ∧ P s) →
      ∃ l, loopN body i rem = some l ∧ l.length = rem ∧ ∀ x ∈ l, P x := by
  intro rem
  induction rem with
  | zero =>
    intro i _
    exact ⟨[], rfl, rfl, by simp⟩
  | succ r ih =>
    intro i h
    obtain ⟨s, hs, hPs⟩ := h 0 (Nat.succ_pos r)
    rw [Nat.add_zero] at hs
    obtain ⟨l, hl, hlen, hmem⟩ := ih (i + 1) (fun k hk => by
      obtain ⟨s₂, hs₂, hP₂⟩ := h (k + 1) (Nat.succ_lt_succ hk)
      exact ⟨s₂, by rw [show i + 1 + k = i + (k + 1) from by omega]; exact hs₂, hP₂⟩)
    refine ⟨s :: l, ?_, by simp [hlen], ?_⟩
    · simp only [loopN]
      rw [hs, hl]
    · intro x hx
      rcases List.mem_cons.mp hx with hx | hx
      · rw [hx]; exact hPs
      · exact hmem x hx

theorem delBody_spec (w : Str) (i : Nat) (h : i < w.length) :
    ∃ s, delBody w i = some s ∧ s.length + 1 = w.length := by
  refine ⟨(w.drop 0).take i ++ w.drop (i + 1), ?_, ?_⟩
  · simp only [delBody, substrCnt, substrFrom]
    rw [if_pos (Nat.zero_le _), if_pos (by omega)]
    rfl
  · simp only [List.length_append, List.length_take, List.length_drop, List.drop_zero]
    omega

theorem transBody_spec (w : Str) (i : Nat) (h : i + 2 ≤ w.length) :
    ∃ s, transBody w i = some s ∧ s.length = w.length := by
  have h₁ : i + 1 < w.length := by omega
  have h₂ : i < w.length := by omega
  refine ⟨(w.drop 0).take i ++ [w.get ⟨i + 1, h₁⟩, w.get ⟨i, h₂⟩] ++ w.drop (i + 2), ?_, ?_⟩
  · simp only [transBody, substrCnt, substrFrom, charAt]
    rw [if_pos (Nat.zero_le _), dif_pos h₁, dif_pos h₂, if_pos (by omega)]
    rfl
  · simp only [List.length_append, List.length_take, List.length_drop, List.drop_zero,
      List.length_cons, List.length_nil]
    omega

theorem altBody_spec (w : Str) (j : Char) (i : Nat) (h : i < w.length) :
    ∃ s, altBody w j i = some s ∧ s.length = w.length := by
  refine ⟨(w.drop 0).take i ++ [j] ++ w.drop (i + 1), ?_, ?_⟩
  · simp only [altBody, substrCnt, substrFrom]
    rw [if_pos (Nat.zero_le _), if_pos (by omega)]
    rfl
  · simp only [List.length_append, List.length_take, List.length_drop, List.drop_zero,
      List.length_cons, List.length_nil]
    omega

theorem insBody_spec (w : Str) (j : Char) (i : Nat) (h : i ≤ w.length) :
    ∃ s, insBody w j i = some s ∧ s.length = w.length + 1 := by
  refine ⟨(w.drop 0).take i ++ [j] ++ w.drop i, ?_, ?_⟩
  · simp only [insBody, substrCnt, substrFrom]
    rw [if_pos (Nat.zero_le _), if_pos h]
    rfl
  · simp only [List.length_append, List.length_take, List.length_drop, List.drop_zero,
      List.length_cons, List.length_nil]
    omega

theorem perLetter_spec (w : Str) :
    ∀ js, ∃ l, perLetter w js = some l ∧
      l.length = js.length * (2 * w.length + 1) ∧
      ∀ x ∈ l, w.length ≤ x.length + 1 ∧ x.length ≤ w.length + 1 := by
  intro js
  induction js with
  | nil => exact ⟨[], rfl, by simp, by simp⟩
  | cons j js ih =>
    obtain ⟨alts, halts, haltlen, haltmem⟩ :=
      loopN_spec (altBody w j) (fun s => s.length = w.length) w.length 0
        (fun k hk => by simpa using altBody_spec w j k (by omega))
    obtain ⟨ins, hins, hinslen, hinsmem⟩ :=
      loopN_spec (insBody w j) (fun s => s.length = w.length + 1) (w.length + 1) 0
        (fun k hk => by simpa using insBody_spec w j k (by omega))
    obtain ⟨rest, hrest, hrestlen, hrestmem⟩ := ih
    refine ⟨alts ++ ins ++ rest, ?_, ?_, ?_⟩
    · simp only [perLetter]
      rw [halts, hins, hrest]
      rfl
    · simp only [List.length_append, haltlen, hinslen, hrestlen, List.length_cons]
      ring
    · intro x hx
      simp only [List.mem_append] at hx
      rcases hx with (hx | hx) | hx
      · have := haltmem x hx
        omega
      · have := hinsmem x hx
        omega
      · exact hrestmem x hx

theorem letters_length : letters.length = 26 := rfl

theorem edits_spec (w : Str) (h₁ : 1 ≤ w.length) (h₂ : w.length < szMod) :
    ∃ l, edits w = some l ∧
      l.length = w.length + (w.length - 1) + 26 * (2 * w.length + 1) ∧
      ∀ x ∈ l, w.length ≤ x.length + 1 ∧ x.length ≤ w.length + 1 := by
  obtain ⟨dels, hdels, hdlen, hdmem⟩ :=
    loopN_spec (delBody w) (fun s => s.length + 1 = w.length) w.length 0
      (fun k hk => by simpa using delBody_spec w k (by omega))
  have hbound : (w.length + (szMod - 1)) % szMod = w.length - 1 := by
    have hsz : 0 < szMod := by norm_num [szMod]
    have : w.length + (szMod - 1) = (w.length - 1) + szMod := by omega
    rw [this, Nat.add_mod_right]
    exact Nat.mod_eq_of_lt (by omega)
  obtain ⟨trans, htrans, htlen, htmem⟩ :=
    loopN_spec (transBody w) (fun s => s.length = w.length) (w.length - 1) 0
      (fun k hk => by simpa using transBody_spec w k (by omega))
  obtain ⟨rest, hrest, hrestlen, hrestmem⟩ := perLetter_spec w letters
  refine ⟨dels ++ trans ++ rest, ?_, ?_, ?_⟩
  · simp only [edits]
    rw [hdels, hbound, htrans, hrest]
    rfl
  · simp only [List.length_append, hdlen, htlen, hrestlen, letters_length]
  · intro x hx
    simp only [List.mem_append] at hx
    rcases hx with (hx | hx) | hx
    · have := hdmem x hx
      omega
    · have := htmem x hx
      omega
    · exact hrestmem x hx

theorem edits_nil : edits [] = none := by decide

theorem edits_isSome (w : Str) (h₁ : 1 ≤ w.length) (h₂ : w.length < szMod) :
    (edits w).isSome := by
  obtain ⟨l, hl, -, -⟩ := edits_spec w h₁ h₂
  rw [hl]
  rfl

/-! ### Unfolding lemmas for `correct` -/

theorem correct_tier2 (d : SMap) (w : Str) (c : Str × Int) (cs : List (Str × Int))
    (h₁ : mapFind d w = none)
    (h₂ : (edits w).map (fun res => known d res []) = some (c :: cs)) :
    correct d w = some (maxElem c cs).1 := by
  cases he : edits w with
  | none =>
    rw [he] at h₂
    exact absurd h₂ (by simp)
  | some res =>
    rw [he] at h₂
    simp only [Option.map_some'] at h₂
    have h₃ : known d res [] = c :: cs := Option.some.inj h₂
    simp only [correct, h₁, he, h₃]

theorem correct_sel (d : SMap) (w : Str) (c : Str × Int) (cs : List (Str × Int))
    (h₁ : mapFind d w = none) (h₂ : selCandidates d w = some (c :: cs)) :
    correct d w = some (maxElem c cs).1 := by
  cases he : edits w with
  | none =>
    simp only [selCandidates, he] at h₂
    exact absurd h₂ (by simp)
  | some res =>
    simp only [selCandidates, he] at h₂
    cases hk : known d res [] with
    | cons c₀ cs₀ =>
      rw [hk] at h₂
      have h₃ : c₀ :: cs₀ = c :: cs := Option.some.inj h₂
      injection h₃ with h₄ h₅
      subst h₄
      subst h₅
      simp only [correct, h₁, he, hk]
    | nil =>
      rw [hk] at h₂
      have h₃ : tier3 d res [] = some (c :: cs) := h₂
      simp only [correct, h₁, he, hk, h₃]

theorem selCandidates_ordered (d : SMap) (w : Str) (m : SMap)
    (h : selCandidates d w = some m) : mapOrdered m := by
  cases he : edits w with
  | none =>
    simp only [selCandidates, he] at h
    exact absurd h (by simp)
  | some res =>
    simp only [selCandidates, he] at h
    cases hk : known d res [] with
    | cons c₀ cs₀ =>
      rw [hk] at h
      have h₃ : c₀ :: cs₀ = m := Option.some.inj h
      rw [← h₃, ← hk]
      exact known_ordered d res [] List.Pairwise.nil
    | nil =>
      rw [hk] at h
      have h₃ : tier3 d res [] = some m := h
      exact tier3_ordered d res [] m h₃ List.Pairwise.nil

theorem correct_empty_vocab (w : Str) (h₂ : 2 ≤ w.length) (h₃ : w.length + 1 < szMod) :
    correct [] w = some [] := by
  obtain ⟨res, hres, -, hmem⟩ := edits_spec w (by omega) (by omega)
  have hknown : known [] res [] = [] := known_empty_dict res []
  have ht : tier3 [] res [] = some [] := by
    refine tier3_empty_dict res [] (fun r hr => ?_)
    obtain ⟨h₄, h₅⟩ := hmem r hr
    exact edits_isSome r (by omega) (by omega)
  simp only [correct, mapFind_nil, hres, hknown, ht]

/-! ### Claim theorems -/

/-- Claim C1: the spec says `correct` returns normally on every well-typed
input, including the empty word.  The code does not: for the empty word the
transposition loop bound underflows and the body performs an out-of-range
access, so `correct` fails (`none` in the model) whenever it has to generate
the empty word's edits — directly (empty input word not in the vocabulary)
or in the distance-2 stage (any one-letter word that reaches it, whose
deletion edit is the empty string). -/
theorem correct_error_on_empty_word :
    correct [] [] = none ∧ correct [] ['a'] = none := by decide

/-- Claim C2: the spec says `edits` on the empty word yields exactly the 26
single-letter insertions and never errors, with the transposition bound not
underflowing.  In the code `edits("")` fails (underflowing unsigned bound,
then out-of-range access), so its candidate count is an error rather than
26; a one-letter word works and yields 79 candidates, none of them from the
transposition stage. -/
theorem edits_error_on_empty_word :
    edits [] = none ∧ (edits ['a']).map List.length = some 79 := by decide

/-- Claim C3: if the word is itself a vocabulary key, `correct` returns it
immediately, without evaluating the edit tiers and regardless of any other
entry's weight. -/
theorem correct_exact_match (d : SMap) (w : Str) (v : Int)
    (h : mapFind d w = some v) : correct d w = some w := by
  simp only [correct, h]

/-- Witness for C3 at a concrete input: the empty string is a key (weight 7)
next to a far heavier entry, and is returned as-is — had any edit tier been
evaluated, `edits ""` would have failed. -/
theorem correct_exact_match_witness :
    correct [([], 7), (['x'], 100)] [] = some [] :=
  correct_exact_match [([], 7), (['x'], 100)] [] 7 (by decide)

/-- Claim C4 (counterexample, proving the claimed existence false): no input
exists on which a distance-1 candidate that was found in the vocabulary at
tier 2 but is not tier 2's selected maximum is the value returned by
`correct` (at tier 3 or anywhere else): a nonempty tier-2 accumulator always
returns its maximum at tier 2. -/
theorem tier2_loser_never_returned :
    ¬ ∃ (d : SMap) (w : Str) (c : Str × Int) (cs : List (Str × Int)) (x : Str × Int),
        mapFind d w = none ∧
        (edits w).map (fun res => known d res []) = some (c :: cs) ∧
        x ∈ c :: cs ∧ x.1 ≠ (maxElem c cs).1 ∧
        correct d w = some x.1 := by
  rintro ⟨d, w, c, cs, x, h₁, h₂, hx, hne, hret⟩
  rw [correct_tier2 d w c cs h₁ h₂] at hret
  exact hne (Option.some.inj hret).symm

/-- Claim C4 (amended): whenever the tier-2 candidate accumulator is
nonempty, `correct` short-circuits at tier 2 and returns that accumulator's
maximum-weight entry; tier 3 is reached only with an empty accumulator, so
no tier-2 candidate — winner or loser — is ever returned by tier 3. -/
theorem tier2_nonempty_returns_max (d : SMap) (w : Str) (c : Str × Int)
    (cs : List (Str × Int)) (h₁ : mapFind d w = none)
    (h₂ : (edits w).map (fun res => known d res []) = some (c :: cs)) :
    correct d w = some (maxElem c cs).1 :=
  correct_tier2 d w c cs h₁ h₂

/-- Witness for the amended C4 at a concrete input. -/
theorem tier2_nonempty_returns_max_witness :
    correct [(['a'], 1)] ['b'] = some ['a'] := by
  have h := tier2_nonempty_returns_max [(['a'], 1)] ['b'] (['a'], 1) []
    (by decide) (by decide)
  simpa using h

/-- Claim C5 (counterexample): with vocabulary a and b (equal weight 1) and
input word ab, the surviving distance-1 candidates in generation
(discovery) order are b — the first deletion — then a, yet `correct`
returns a, not the first-discovered b: ties are not resolved by generation
order. -/
theorem tie_break_not_generation_order :
    (edits ['a', 'b']).map
        (List.filter (fun r => (mapFind [(['a'], 1), (['b'], 1)] r).isSome))
      = some [['b'], ['a']] ∧
    mapFind [(['a'], 1), (['b'], 1)] ['b'] = some 1 ∧
    mapFind [(['a'], 1), (['b'], 1)] ['a'] = some 1 ∧
    correct [(['a'], 1), (['b'], 1)] ['a', 'b'] = some ['a'] ∧
    correct [(['a'], 1), (['b'], 1)] ['a', 'b'] ≠ some ['b'] := by decide

/-- Claim C5 (amended): when two or more surviving candidates share the
maximum weight, `correct` returns the lexicographically smallest of them —
`max_element` keeps the first maximum in `std::map` iteration order, which
is sorted by key, not by generation order. -/
theorem tie_break_lex_least (d : SMap) (w : Str) (c : Str × Int)
    (cs : List (Str × Int)) (h₁ : mapFind d w = none)
    (h₂ : selCandidates d w = some (c :: cs)) :
    correct d w = some (maxElem c cs).1 ∧
    (∀ x ∈ c :: cs, x.2 ≤ (maxElem c cs).2) ∧
    (∀ x ∈ c :: cs, x.2 = (maxElem c cs).2 →
      lexLt x.1 (maxElem c cs).1 = false) := by
  refine ⟨correct_sel d w c cs h₁ h₂, fun x hx => maxElem_ge cs c x hx,
    fun x hx hw => ?_⟩
  exact maxElem_lex_least cs c x (selCandidates_ordered d w (c :: cs) h₂) hx hw

/-- Witness for the amended C5 at the tied concrete input. -/
theorem tie_break_lex_least_witness :
    correct [(['a'], 1), (['b'], 1)] ['a', 'b'] = some ['a'] := by
  have h := tie_break_lex_least [(['a'], 1), (['b'], 1)] ['a', 'b']
    (['a'], 1) [(['b'], 1)] (by decide) (by decide)
  simpa using h.1

/-- Claim C6: if the word is not a key and some distance-1 candidate is, the
returned value is a surviving distance-1 candidate of maximal stored weight
among all survivors. -/
theorem distance1_max_weight (d : SMap) (w : Str) (c : Str × Int)
    (cs : List (Str × Int)) (h₁ : mapFind d w = none)
    (h₂ : (edits w).map (fun res => known d res []) = some (c :: cs)) :
    correct d w = some (maxElem c cs).1 ∧ maxElem c cs ∈ c :: cs ∧
      ∀ x ∈ c :: cs, x.2 ≤ (maxElem c cs).2 :=
  ⟨correct_tier2 d w c cs h₁ h₂, maxElem_mem cs c,
    fun x hx => maxElem_ge cs c x hx⟩

/-- Witness for C6 at the concrete input of the claim: vocabulary
cat (weight 5) and cot (weight 1), word cit; the higher-weight cat wins. -/
theorem distance1_max_weight_witness :
    correct [(['c', 'a', 't'], 5), (['c', 'o', 't'], 1)] ['c', 'i', 't']
      = some ['c', 'a', 't'] := by
  have h := distance1_max_weight [(['c', 'a', 't'], 5), (['c', 'o', 't'], 1)]
    ['c', 'i', 't'] (['c', 'a', 't'], 5) [(['c', 'o', 't'], 1)]
    (by decide) (by decide)
  simpa using h.1

/-- Claim C7: the spec says the vocabulary index holds exactly the current
invocation's terms.  The global `dictionary` is never cleared: after a first
invocation with vocabulary cat and a second with vocabulary dog, the
entry cat is still present and `correct` returns the stale cat, although
cat is not among the second call's terms. -/
theorem dictionary_persists_across_invocations :
    mapFind (fillDict (fillDict [] [['c', 'a', 't']]) [['d', 'o', 'g']])
        ['c', 'a', 't'] = some 1 ∧
    ¬ (['c', 'a', 't'] ∈ [['d', 'o', 'g']]) ∧
    correct (fillDict (fillDict [] [['c', 'a', 't']]) [['d', 'o', 'g']])
        ['c', 'a', 't'] = some ['c', 'a', 't'] := by decide

/-- Claim C8 (counterexample): for the empty word the claimed clamped count
is 26, but `edits` fails instead of producing any count at all. -/
theorem edits_count_error_on_empty :
    ¬ (edits []).map List.length = some 26 := by decide

/-- Claim C8 (amended): for every nonempty word (of machine-representable
length), one call to `edits` produces exactly
`2·len − 1 + 26·(2·len + 1)` candidate strings, duplicates counted. -/
theorem edits_count (w : Str) (h₁ : w ≠ []) (h₂ : w.length < szMod) :
    (edits w).map List.length
      = some (2 * w.length - 1 + 26 * (2 * w.length + 1)) := by
  have hlen : 1 ≤ w.length := by
    cases w with
    | nil => exact absurd rfl h₁
    | cons c t => simp
  obtain ⟨l, hl, hllen, -⟩ := edits_spec w hlen h₂
  rw [hl]
  simp only [Option.map_some', Option.some.injEq]
  rw [hllen]
  omega

/-- Witness for the amended C8: a 3-letter word yields 187 candidates. -/
theorem edits_count_witness :
    (edits ['c', 'a', 't']).map List.length = some 187 := by
  have h := edits_count ['c', 'a', 't'] (by decide) (by norm_num [szMod])
  simpa using h

/-- Claim C9: any value `correct` returns is a vocabulary key or the empty
string, and it equals the input word only when the word itself is a key. -/
theorem correct_result_classification (d : SMap) (w : Str) (r : Str)
    (h : correct d w = some r) :
    (mapFind d r ≠ none ∨ r = []) ∧ (r = w → mapFind d w ≠ none) := by
  cases hf : mapFind d w with
  | some v =>
    simp only [correct, hf] at h
    have hr : w = r := Option.some.inj h
    subst hr
    refine ⟨Or.inl ?_, fun _ => ?_⟩ <;> simp [hf]
  | none =>
    cases he : edits w with
    | none =>
      simp only [correct, hf, he] at h
      exact absurd h (by simp)
    | some res =>
      cases hk : known d res [] with
      | cons c cs =>
        simp only [correct, hf, he, hk] at h
        have hr : (maxElem c cs).1 = r := Option.some.inj h
        have hx : maxElem c cs ∈ known d res [] := by
          rw [hk]
          exact maxElem_mem cs c
        rcases known_mem d res [] (maxElem c cs) hx with hx₂ | hx₂
        · exact absurd hx₂ (by simp)
        constructor
        · left
          rw [← hr, hx₂]
          simp
        · intro hrw
          exfalso
          have : mapFind d w = some (maxElem c cs).2 := by
            rw [← hrw, ← hr]
            exact hx₂
          rw [hf] at this
          exact absurd this (by simp)
      | nil =>
        cases ht : tier3 d res [] with
        | none =>
          simp only [correct, hf, he, hk, ht] at h
          exact absurd h (by simp)
        | some cand =>
          cases cand with
          | cons c cs =>
            simp only [correct, hf, he, hk, ht] at h
            have hr : (maxElem c cs).1 = r := Option.some.inj h
            have hx : maxElem c cs ∈ c :: cs := maxElem_mem cs c
            rcases tier3_mem d res [] (c :: cs) (maxElem c cs) ht hx with hx₂ | hx₂
            · exact absurd hx₂ (by simp)
            constructor
            · left
              rw [← hr, hx₂]
              simp
            · intro hrw
              exfalso
              have : mapFind d w = some (maxElem c cs).2 := by
                rw [← hrw, ← hr]
                exact hx₂
              rw [hf] at this
              exact absurd this (by simp)
          | nil =>
            simp only [correct, hf, he, hk, ht] at h
            have hr : r = [] := (Option.some.inj h).symm
            constructor
            · exact Or.inr hr
            · intro hrw
              exfalso
              rw [hrw] at hr
              rw [hr] at he
              rw [edits_nil] at he
              exact absurd he (by simp)

/-- Witness for C9 at a concrete input (exact-match case). -/
theorem correct_result_classification_witness :
    (mapFind [(['a'], 1)] ['a'] ≠ none ∨ (['a'] : Str) = []) ∧
      ((['a'] : Str) = ['a'] → mapFind [(['a'], 1)] ['a'] ≠ none) :=
  correct_result_classification [(['a'], 1)] ['a'] ['a'] (by decide)

/-- Claim C10: with vocabulary containing the empty string (weight 1), the
word a has the empty string as its deletion edit, a genuine vocabulary
match, and `correct` returns the empty string — exactly the value the
fall-through returns when nothing matches at all (here: word ab against an
empty vocabulary), so the two outcomes are indistinguishable to the
caller. -/
theorem empty_string_result_ambiguous :
    correct [([], 1)] ['a'] = some [] ∧
    mapFind [([], 1)] [] = some 1 ∧
    correct [] ['a', 'b'] = some [] := by
  refine ⟨by decide, by decide, ?_⟩
  exact correct_empty_vocab ['a', 'b'] (by decide) (by norm_num [szMod])
